import Mathlib

/-
  Verification of the dependency-analysis core of the cashflower package
  (src/cashflower/graph.py): call-reference extraction, time-index argument
  validation, calculation-direction classification and predecessor closure.

  The Python AST fragment that the analysis inspects is embedded as the
  inductive type `Expr`.  Only the node kinds the analysis distinguishes are
  modelled explicitly (names, constants, binary operations, calls); every
  other AST node kind is represented by the generic wrappers `node1`/`node2`,
  which only expose their children to the traversal — exactly the role such
  nodes play for `ast.NodeVisitor.generic_visit` (an n-ary generic node is
  represented by nesting the wrappers; the traversal order of the children
  is preserved).  Python exceptions are modelled by the `Except` monad.
-/

namespace Cashflower

/-- Python literal constants, as carried by `ast.Constant`.  `boolc` is kept
separate from `intc` because Python's `bool` is a subclass of `int`:
`isinstance(True, int)` holds, which `Const.isInstInt` reflects. -/
inductive Const where
  | intc (n : Int)
  | boolc (b : Bool)
  | strc (s : String)
  | nonec
deriving DecidableEq, Repr

/-- Python's `isinstance(value, int)` on a literal constant: true for `int`
and for `bool` (a subclass of `int`), false for strings and `None`. -/
def Const.isInstInt : Const → Bool
  | .intc _ => true
  | .boolc _ => true
  | _ => false

/-- Binary operators distinguished by the analysis (`ast.Add`, `ast.Sub`);
`mult`/`divi` stand for the remaining operator kinds. -/
inductive Op where
  | add
  | sub
  | mult
  | divi
deriving DecidableEq, Repr

/-- The embedded Python expression/statement tree.  `call` keeps its full
argument list (arity matters for validation); `node1`/`node2` are the
generic wrappers for every other AST node kind (module, function body,
return, unary operations, comparisons, ...), exposing children in
traversal order. -/
inductive Expr where
  | name (id : String)
  | const (value : Const)
  | binop (left : Expr) (op : Op) (right : Expr)
  | call (func : Expr) (args : List Expr)
  | node1 (child : Expr)
  | node2 (childA childB : Expr)
deriving Repr

/-- The payload of a `CashflowModelError` raised by
`raise_error_if_incorrect_argument`, modelled structurally: the f-string
messages of graph.py interpolate exactly the callee's name, so each error
kind carries that name.  `arity` is the "Model variable must have one
argument. Please review the call of ..." message; `shape` is the
"The argument of a model variable can be only: t, t plus/minus integer,
an integer" message. -/
inductive ErrKind where
  | arity (callee : String)
  | shape (callee : String)
deriving DecidableEq, Repr

/-- Exceptions that can escape the analysis: the package's own
`CashflowModelError`, and Python's built-in `IndexError` (raised by the
subscript `node.args[0]`). -/
inductive PyError where
  | cashflowModelError (msg : ErrKind)
  | indexError
deriving DecidableEq, Repr

/-- Is the error the Validator's own error type (`CashflowModelError`)? -/
def PyError.isValidatorError : PyError → Bool
  | .cashflowModelError _ => true
  | .indexError => false

/-- graph.py, `raise_error_if_incorrect_argument(node)`: raises an arity
error unless the call has exactly one argument, then a shape error unless
that argument is a name that is `t`, a constant that is an `int` instance,
or a binary operation `t op c` with `op` addition or subtraction and `c` an
`int`-instance constant.  The callee name `funcId` is `node.func.id`,
interpolated into the message. -/
def raise_error_if_incorrect_argument (funcId : String) (args : List Expr) :
    Except PyError Unit :=
  match args with
  | [arg] =>
    match arg with
    | .name id =>
        if id ≠ "t" then .error (.cashflowModelError (.shape funcId)) else .ok ()
    | .const v =>
        if ¬ v.isInstInt then .error (.cashflowModelError (.shape funcId)) else .ok ()
    | .binop l op r =>
        let check1 : Bool := match l with | .name lid => lid == "t" | _ => false
        let check2 : Bool := (op == Op.add) || (op == Op.sub)
        let check3 : Bool := match r with | .const rv => rv.isInstInt | _ => false
        if ¬ (check1 && check2 && check3) then
          .error (.cashflowModelError (.shape funcId))
        else .ok ()
    | _ => .error (.cashflowModelError (.shape funcId))
  | _ => .error (.cashflowModelError (.arity funcId))

/-- Spec-side predicate, written from the spec's description of the
permitted Time-Index Argument shapes (§3): the bare time cursor `t`, a
literal integer constant, or the time cursor plus/minus a literal integer
(integer in Python's sense, i.e. an `int` instance). -/
def permitted_time_index : Expr → Bool
  | .name id => id == "t"
  | .const v => v.isInstInt
  | .binop (.name lid) op (.const rv) =>
      lid == "t" && ((op == Op.add) || (op == Op.sub)) && rv.isInstInt
  | _ => false

/-- graph.py, `CallVisitor`: `visit_Call` records the callee of every call
whose function is a bare name among the known variable names, after
validating its argument; it does not call `generic_visit`, so it never
descends into a call's callee or arguments.  All other node kinds are
handled by `generic_visit`, i.e. the children are visited in order.
The accumulator is the visitor's `self.calls` list. -/
def CallVisitor.visit (vars : List String) : Expr → List String →
    Except PyError (List String)
  | .call f args, acc =>
    match f with
    | .name id =>
        if id ∈ vars then
          match raise_error_if_incorrect_argument id args with
          | .error e => .error e
          | .ok _ => .ok (acc ++ [id])
        else .ok acc
    | _ => .ok acc
  | .binop l _ r, acc =>
    match CallVisitor.visit vars l acc with
    | .error e => .error e
    | .ok acc1 => CallVisitor.visit vars r acc1
  | .node1 c, acc => CallVisitor.visit vars c acc
  | .node2 a b, acc =>
    match CallVisitor.visit vars a acc with
    | .error e => .error e
    | .ok acc1 => CallVisitor.visit vars b acc1
  | .name _, acc => .ok acc
  | .const _, acc => .ok acc

/-- graph.py, `CalcDirectionVisitor`: `visit_Call` inspects `node.args[0]`
of every call to a known variable name (an `IndexError` if the call has no
arguments — no validator is invoked here); if the argument is a binary
operation on the name `t`, addition sets the running direction to
"backward" and subtraction sets it to "forward".  Like `CallVisitor`, it
does not descend into call nodes; other nodes are traversed generically.
The `cd` parameter threads the visitor's `self.calc_direction` field. -/
def CalcDirectionVisitor.visit (vars : List String) : Expr → String →
    Except PyError String
  | .call f args, cd =>
    match f with
    | .name id =>
        if id ∈ vars then
          match args with
          | [] => .error .indexError
          | arg :: _ =>
            match arg with
            | .binop l op _ =>
                let check1 : Bool := match l with | .name lid => lid == "t" | _ => false
                let check2 : Bool := op == Op.add
                let check3 : Bool := op == Op.sub
                let cd1 := if check1 && check2 then "backward" else cd
                let cd2 := if check1 && check3 then "forward" else cd1
                .ok cd2
            | _ => .ok cd
        else .ok cd
    | _ => .ok cd
  | .binop l _ r, cd =>
    match CalcDirectionVisitor.visit vars l cd with
    | .error e => .error e
    | .ok cd1 => CalcDirectionVisitor.visit vars r cd1
  | .node1 c, cd => CalcDirectionVisitor.visit vars c cd
  | .node2 a b, cd =>
    match CalcDirectionVisitor.visit vars a cd with
    | .error e => .error e
    | .ok cd1 => CalcDirectionVisitor.visit vars b cd1
  | .name _, cd => .ok cd
  | .const _, cd => .ok cd

/-- A model variable: its name, the parsed tree of its formula's source
(`ast.parse(inspect.getsource(variable.func))`), and its mutable
`calc_direction` attribute (default "irrelevant"). -/
structure Variable where
  name : String
  formula : Expr
  calc_direction : String
deriving Repr

/-- Modelled from the spec: `get_object_by_name` lives in utils.py, which is
not under src/; per §6 it is the name-lookup collaborator that resolves a
variable name string to its Variable object. -/
def get_object_by_name (vs : List Variable) (name : String) :
    Option Variable :=
  vs.find? (fun v => v.name == name)

/-- graph.py, `get_calls(variable, variables)`: runs `CallVisitor` over the
variable's parsed formula with the group's name list, then resolves every
recorded name other than the variable's own name, in order. -/
def get_calls (v : Variable) (vs : List Variable) :
    Except PyError (List (Option Variable)) :=
  let variable_names := vs.map Variable.name
  match CallVisitor.visit variable_names v.formula [] with
  | .error e => .error e
  | .ok call_names =>
      .ok (((call_names.filter (fun n => n != v.name))).map
        (get_object_by_name vs))

/-- The loop body of graph.py's `get_calc_direction`: one shared
`CalcDirectionVisitor` whose running `calc_direction` (`cd`) persists across
the variables of the group; each variable's `calc_direction` attribute is
assigned the running value as it stands right after that variable's formula
is traversed.  Returns the updated variables and the final running value. -/
def classifyLoop (names : List String) (cd : String) :
    List Variable → Except PyError (List Variable × String)
  | [] => .ok ([], cd)
  | v :: rest =>
    match CalcDirectionVisitor.visit names v.formula cd with
    | .error e => .error e
    | .ok cd1 =>
      match classifyLoop names cd1 rest with
      | .error e => .error e
      | .ok (rest1, cdF) => .ok ({ v with calc_direction := cd1 } :: rest1, cdF)

/-- graph.py, `get_calc_direction(variables)`: classifies one group with a
single visitor initialized to "irrelevant". -/
def get_calc_direction (vs : List Variable) :
    Except PyError (List Variable) :=
  match classifyLoop (vs.map Variable.name) "irrelevant" vs with
  | .error e => .error e
  | .ok (updated, _) => .ok updated

/-- A finite directed graph (the external networkx DiGraph, as far as
`get_predecessors` reads it): a node list and an edge list, an edge
`(a, b)` meaning `a → b` (a's formula calls b... the direction is the
builder's business; `get_predecessors` only uses `DG.predecessors`). -/
structure Digraph where
  nodes : List Nat
  edges : List (Nat × Nat)

/-- `DG.predecessors(n)`: the sources of the edges into `n`. -/
def Digraph.predecessors (DG : Digraph) (n : Nat) : List Nat :=
  (DG.edges.filter (fun e => e.2 == n)).map Prod.fst

/-- Every node value occurring anywhere in the graph (used only to bound
the breadth-first traversal's fuel). -/
def Digraph.allNodes (DG : Digraph) : List Nat :=
  DG.nodes ++ DG.edges.map Prod.fst ++ DG.edges.map Prod.snd

/-- The inner `for child in DG.predecessors(node)` loop of
`get_predecessors`: each child not yet visited is appended to the FIFO
queue and to the visited list (the visited list grows while the loop runs,
so duplicate children are enqueued once). -/
def enqueueChildren (children queue visited : List Nat) :
    List Nat × List Nat :=
  match children with
  | [] => (queue, visited)
  | c :: cs =>
    if c ∈ visited then enqueueChildren cs queue visited
    else enqueueChildren cs (queue ++ [c]) (visited ++ [c])

/-- The `while not queue.empty()` loop of graph.py's `get_predecessors`,
with an explicit fuel counter standing in for the absence of any bound in
the source: `none` means the fuel ran out mid-loop (the totality theorems
show this never happens for the fuel `get_predecessors` supplies). -/
def bfsLoop (DG : Digraph) : Nat → List Nat → List Nat →
    Option (List Nat)
  | _, [], visited => some visited
  | 0, _ :: _, _ => none
  | fuel + 1, n :: rest, visited =>
    let step := enqueueChildren (DG.predecessors n) rest visited
    bfsLoop DG fuel step.1 step.2

/-- graph.py, `get_predecessors(node, DG)`: breadth-first traversal of the
graph's predecessor relation starting from `node`, returning the visited
list in discovery order. -/
def get_predecessors (node : Nat) (DG : Digraph) : Option (List Nat) :=
  bfsLoop DG (DG.allNodes.length + 1) [node] [node]

/-! ### Spec-side description of the visitors' traversal

Both visitors override `visit_Call` without calling `generic_visit`, so the
set of call expressions a traversal can act on is exactly the calls
reachable from the root without passing through another call node.
`reachableCalls` lists those calls (as callee/argument pairs) in traversal
order; the characterization lemmas below prove the visitors equal a
left-to-right processing of that list. -/

/-- The call expressions reachable by `ast.NodeVisitor` traversal given
that `visit_Call` never recurses: every call node not strictly inside
another call node, in visit order. -/
def reachableCalls : Expr → List (Expr × List Expr)
  | .call f args => [(f, args)]
  | .binop l _ r => reachableCalls l ++ reachableCalls r
  | .node1 c => reachableCalls c
  | .node2 a b => reachableCalls a ++ reachableCalls b
  | .name _ => []
  | .const _ => []

/-- What `CallVisitor.visit_Call` does with one call site. -/
def processCall (vars : List String) (acc : List String) :
    Expr × List Expr → Except PyError (List String)
  | (f, args) =>
    match f with
    | .name id =>
        if id ∈ vars then
          match raise_error_if_incorrect_argument id args with
          | .error e => .error e
          | .ok _ => .ok (acc ++ [id])
        else .ok acc
    | _ => .ok acc

/-- Left-to-right processing of a list of call sites, aborting on the
first validation error. -/
def processCalls (vars : List String) (acc : List String) :
    List (Expr × List Expr) → Except PyError (List String)
  | [] => .ok acc
  | c :: cs =>
    match processCall vars acc c with
    | .error e => .error e
    | .ok acc1 => processCalls vars acc1 cs

/-- Does this call site make `raise_error_if_incorrect_argument` raise,
for a call whose callee is a known bare name? -/
def callFails (vars : List String) : Expr × List Expr → Bool
  | (f, args) =>
    match f with
    | .name id =>
        decide (id ∈ vars) &&
          (match raise_error_if_incorrect_argument id args with
           | .error _ => true
           | .ok _ => false)
    | _ => false

/-- What `CalcDirectionVisitor.visit_Call` does with one call site. -/
def dirStep (vars : List String) (cd : String) :
    Expr × List Expr → Except PyError String
  | (f, args) =>
    match f with
    | .name id =>
        if id ∈ vars then
          match args with
          | [] => .error .indexError
          | arg :: _ =>
            match arg with
            | .binop l op _ =>
                let check1 : Bool := match l with | .name lid => lid == "t" | _ => false
                let check2 : Bool := op == Op.add
                let check3 : Bool := op == Op.sub
                let cd1 := if check1 && check2 then "backward" else cd
                let cd2 := if check1 && check3 then "forward" else cd1
                .ok cd2
            | _ => .ok cd
        else .ok cd
    | _ => .ok cd

/-- Left-to-right folding of the direction updates over a list of call
sites. -/
def dirSteps (vars : List String) (cd : String) :
    List (Expr × List Expr) → Except PyError String
  | [] => .ok cd
  | c :: cs =>
    match dirStep vars cd c with
    | .error e => .error e
    | .ok cd1 => dirSteps vars cd1 cs

/-- A call site that moves (or crashes) the direction classifier: a call to
a known name whose argument list is empty (IndexError) or starts with a
binary operation (the only argument shape `CalcDirectionVisitor` reacts
to). -/
def callShiftsOrBreaks (vars : List String) : Expr × List Expr → Bool
  | (f, args) =>
    match f with
    | .name id =>
        decide (id ∈ vars) &&
          (match args with
           | [] => true
           | .binop _ _ _ :: _ => true
           | _ :: _ => false)
    | _ => false

/-- Does the formula contain any reachable call that can change the
running direction (or crash the classifier)? -/
def hasTimeShiftedCall (vars : List String) (e : Expr) : Bool :=
  (reachableCalls e).any (callShiftsOrBreaks vars)

/-- The variable name carried by a validation error (both messages
interpolate exactly the callee's name). -/
def ErrKind.callee : ErrKind → String
  | .arity c => c
  | .shape c => c

/-- How many node values of the graph are not yet on the visited list
(the measure that shrinks as the breadth-first loop marks nodes). -/
def unvisitedCount (DG : Digraph) (visited : List Nat) : Nat :=
  (DG.allNodes.toFinset \ visited.toFinset).card

/-! ### Concrete model variables used as test inputs

Each formula field is the parsed source of the defining function:
`node1` wrappers stand for the `Module`/`FunctionDef`/`Return` layers and
any other non-call interior node. -/

/-- `f(t) = f(t-1) * r`: the spec's self-lagged scenario variable. -/
def fSelfLag : Variable :=
  ⟨"f", .node1 (.node1 (.node1 (.binop (.call (.name "f")
      [.binop (.name "t") .sub (.const (.intc 1))]) .mult (.name "r")))), "irrelevant"⟩

/-- `g(t) = 0`. -/
def gConstVar : Variable := ⟨"g", .node1 (.const (.intc 0)), "irrelevant"⟩

/-- `h(t) = 0`. -/
def hConstVar : Variable := ⟨"h", .node1 (.const (.intc 0)), "irrelevant"⟩

/-- `f(t) = 0`. -/
def fConstVar : Variable := ⟨"f", .node1 (.const (.intc 0)), "irrelevant"⟩

/-- `a(t) = g(f())`: a call to the known variable `f` (with an invalid
empty argument list) nested inside the argument of a call to the unknown
function `g`. -/
def aNestedCall : Variable :=
  ⟨"a", .node1 (.call (.name "g") [.call (.name "f") []]), "irrelevant"⟩

/-- `a(t) = g(t) + g(t)`: the same known variable called twice. -/
def aDoubleCall : Variable :=
  ⟨"a", .node1 (.binop (.call (.name "g") [.name "t"]) .add
      (.call (.name "g") [.name "t"])), "irrelevant"⟩

/-- `f(t) = g()`: a zero-argument call to a group member. -/
def fZeroArgCall : Variable := ⟨"f", .node1 (.call (.name "g") []), "irrelevant"⟩

/-- `a(t) = g(t) + h(t, t)`: a valid call followed by a two-argument call. -/
def aArityBad : Variable :=
  ⟨"a", .node1 (.binop (.call (.name "g") [.name "t"]) .add
      (.call (.name "h") [.name "t", .name "t"])), "irrelevant"⟩

/-- `p(t) = p(t+1)`. -/
def pPlusOne : Variable :=
  ⟨"p", .node1 (.call (.name "p") [.binop (.name "t") .add (.const (.intc 1))]),
    "irrelevant"⟩

/-- `q(t) = p(t)`: no time-shifted call. -/
def qCallsP : Variable := ⟨"q", .node1 (.call (.name "p") [.name "t"]), "irrelevant"⟩

/-- `a(t) = g(True)`: a boolean literal as the time-index argument. -/
def aBoolArg : Variable :=
  ⟨"a", .node1 (.call (.name "g") [.const (.boolc true)]), "irrelevant"⟩

/-- A directed graph with two cycles (1 ⇄ 2 and the self-loop on 3). -/
def DGcycle : Digraph := ⟨[1, 2, 3], [(1, 2), (2, 1), (2, 3), (3, 3)]⟩


/-! ### Helper lemmas -/

theorem processCalls_append (vars : List String) (xs ys : List (Expr × List Expr)) :
    ∀ acc, processCalls vars acc (xs ++ ys) =
      match processCalls vars acc xs with
      | .error e => .error e
      | .ok acc1 => processCalls vars acc1 ys := by
  induction xs with
  | nil => intro acc; simp [processCalls]
  | cons c cs ih =>
    intro acc
    simp only [List.cons_append, processCalls]
    cases h : processCall vars acc c with
    | error e => simp
    | ok acc1 => simpa using ih acc1

theorem visit_eq_processCalls (vars : List String) :
    ∀ (e : Expr) (acc : List String),
      CallVisitor.visit vars e acc = processCalls vars acc (reachableCalls e)
  | .name _, acc => by simp [CallVisitor.visit, reachableCalls, processCalls]
  | .const _, acc => by simp [CallVisitor.visit, reachableCalls, processCalls]
  | .binop l op r, acc => by
    have ihl := visit_eq_processCalls vars l
    have ihr := visit_eq_processCalls vars r
    simp only [CallVisitor.visit, reachableCalls, processCalls_append]
    rw [ihl]
    cases h : processCalls vars acc (reachableCalls l) with
    | error e => simp
    | ok acc1 => simpa using ihr acc1
  | .call f args, acc => by
    cases f <;> simp [CallVisitor.visit, reachableCalls, processCalls, processCall]
    case name id =>
      by_cases hid : id ∈ vars
      · simp [hid]
        cases h : raise_error_if_incorrect_argument id args <;> simp
      · simp [hid]
  | .node1 c, acc => by
    have ih := visit_eq_processCalls vars c
    simpa [CallVisitor.visit, reachableCalls] using ih acc
  | .node2 a b, acc => by
    have iha := visit_eq_processCalls vars a
    have ihb := visit_eq_processCalls vars b
    simp only [CallVisitor.visit, reachableCalls, processCalls_append]
    rw [iha]
    cases h : processCalls vars acc (reachableCalls a) with
    | error e => simp
    | ok acc1 => simpa using ihb acc1

theorem dirSteps_append (vars : List String) (xs ys : List (Expr × List Expr)) :
    ∀ cd, dirSteps vars cd (xs ++ ys) =
      match dirSteps vars cd xs with
      | .error e => .error e
      | .ok cd1 => dirSteps vars cd1 ys := by
  induction xs with
  | nil => intro cd; simp [dirSteps]
  | cons c cs ih =>
    intro cd
    simp only [List.cons_append, dirSteps]
    cases h : dirStep vars cd c with
    | error e => simp
    | ok cd1 => simpa using ih cd1

theorem dirVisit_eq_dirSteps (vars : List String) :
    ∀ (e : Expr) (cd : String),
      CalcDirectionVisitor.visit vars e cd = dirSteps vars cd (reachableCalls e)
  | .name _, cd => by simp [CalcDirectionVisitor.visit, reachableCalls, dirSteps]
  | .const _, cd => by simp [CalcDirectionVisitor.visit, reachableCalls, dirSteps]
  | .binop l op r, cd => by
    have ihl := dirVisit_eq_dirSteps vars l
    have ihr := dirVisit_eq_dirSteps vars r
    simp only [CalcDirectionVisitor.visit, reachableCalls, dirSteps_append]
    rw [ihl]
    cases h : dirSteps vars cd (reachableCalls l) with
    | error e => simp
    | ok cd1 => simpa using ihr cd1
  | .call f args, cd => by
    have hd : CalcDirectionVisitor.visit vars (.call f args) cd = dirStep vars cd (f, args) := rfl
    rw [hd, reachableCalls]
    cases h : dirStep vars cd (f, args) <;> simp [dirSteps, h]
  | .node1 c, cd => by
    have ih := dirVisit_eq_dirSteps vars c
    simpa [CalcDirectionVisitor.visit, reachableCalls] using ih cd
  | .node2 a b, cd => by
    have iha := dirVisit_eq_dirSteps vars a
    have ihb := dirVisit_eq_dirSteps vars b
    simp only [CalcDirectionVisitor.visit, reachableCalls, dirSteps_append]
    rw [iha]
    cases h : dirSteps vars cd (reachableCalls a) with
    | error e => simp
    | ok cd1 => simpa using ihb cd1

theorem dirSteps_of_no_shift (vars : List String) (cs : List (Expr × List Expr))
    (h : cs.any (callShiftsOrBreaks vars) = false) :
    ∀ cd, dirSteps vars cd cs = .ok cd := by
  induction cs with
  | nil => intro cd; simp [dirSteps]
  | cons c rest ih =>
    intro cd
    simp only [List.any_cons, Bool.or_eq_false_iff] at h
    obtain ⟨h1, h2⟩ := h
    have hstep : dirStep vars cd c = .ok cd := by
      obtain ⟨f, args⟩ := c
      cases f <;> simp [dirStep, callShiftsOrBreaks] at h1 ⊢
      case name id =>
        by_cases hid : id ∈ vars
        · simp [hid] at h1 ⊢
          cases args with
          | nil => simp at h1
          | cons a rest2 =>
            cases a <;> simp at h1 ⊢
        · simp [hid]
    rw [dirSteps, hstep]
    exact ih h2 cd

theorem classifyLoop_append (names : List String) (xs ys : List Variable) :
    ∀ cd, classifyLoop names cd (xs ++ ys) =
      match classifyLoop names cd xs with
      | .error e => .error e
      | .ok (l1, cd1) =>
        match classifyLoop names cd1 ys with
        | .error e => .error e
        | .ok (l2, cd2) => .ok (l1 ++ l2, cd2) := by
  induction xs with
  | nil =>
    intro cd
    simp only [List.nil_append, classifyLoop]
    cases h : classifyLoop names cd ys with
    | error e => simp
    | ok p => simp
  | cons v rest ih =>
    intro cd
    simp only [List.cons_append, classifyLoop]
    cases hv : CalcDirectionVisitor.visit names v.formula cd with
    | error e => simp
    | ok cd1 =>
      simp only [List.append_eq]
      rw [ih cd1]
      cases h1 : classifyLoop names cd1 rest with
      | error e => simp
      | ok p1 =>
        obtain ⟨l1, cdm⟩ := p1
        cases h2 : classifyLoop names cdm ys with
        | error e => simp [h2]
        | ok p2 => obtain ⟨l2, cdF⟩ := p2; simp [h2]

theorem raise_error_one_arg (funcId : String) (arg : Expr) :
    raise_error_if_incorrect_argument funcId [arg] =
      if permitted_time_index arg then .ok ()
      else .error (.cashflowModelError (.shape funcId)) := by
  cases arg with
  | name id =>
    by_cases h : id = "t" <;>
      simp [raise_error_if_incorrect_argument, permitted_time_index, h]
  | const v =>
    by_cases h : v.isInstInt <;>
      simp [raise_error_if_incorrect_argument, permitted_time_index, h]
  | binop l op r =>
    cases l <;> cases r <;>
      simp [raise_error_if_incorrect_argument, permitted_time_index] <;>
      · rename_i lid rv
        by_cases h1 : lid = "t" <;> by_cases h2 : op = Op.add ∨ op = Op.sub <;>
          first
          | (by_cases h3 : rv.isInstInt <;> simp_all)
          | simp_all
  | call f args => simp [raise_error_if_incorrect_argument, permitted_time_index]
  | node1 c => simp [raise_error_if_incorrect_argument, permitted_time_index]
  | node2 a b => simp [raise_error_if_incorrect_argument, permitted_time_index]

theorem raise_error_not_one_arg (funcId : String) (args : List Expr)
    (h : args.length ≠ 1) :
    raise_error_if_incorrect_argument funcId args =
      .error (.cashflowModelError (.arity funcId)) := by
  match args with
  | [] => rfl
  | [a] => simp at h
  | a :: b :: rest => rfl

theorem raise_error_error_cases (funcId : String) (args : List Expr) (e : PyError)
    (h : raise_error_if_incorrect_argument funcId args = .error e) :
    e = .cashflowModelError (.arity funcId) ∨ e = .cashflowModelError (.shape funcId) := by
  match args with
  | [] => simp [raise_error_if_incorrect_argument] at h; simp [h]
  | [a] =>
    rw [raise_error_one_arg] at h
    by_cases hp : permitted_time_index a <;> simp [hp] at h
    simp [h]
  | a :: b :: rest =>
    have : raise_error_if_incorrect_argument funcId (a :: b :: rest) =
        .error (.cashflowModelError (.arity funcId)) := rfl
    rw [this] at h
    simp at h
    simp [h]

theorem processCalls_error_names_offender (vars : List String)
    (cs : List (Expr × List Expr)) (h : cs.any (callFails vars) = true) :
    ∀ acc, ∃ (c : String) (args : List Expr) (k : ErrKind),
      (Expr.name c, args) ∈ cs ∧ c ∈ vars ∧
      raise_error_if_incorrect_argument c args = .error (.cashflowModelError k) ∧
      k.callee = c ∧
      processCalls vars acc cs = .error (.cashflowModelError k) := by
  induction cs with
  | nil => simp at h
  | cons hd rest ih =>
    intro acc
    simp only [List.any_cons, Bool.or_eq_true] at h
    by_cases hc : callFails vars hd = true
    · obtain ⟨f, args⟩ := hd
      cases f <;> simp [callFails] at hc
      rename_i id
      obtain ⟨hid, hfail⟩ := hc
      cases hr : raise_error_if_incorrect_argument id args with
      | ok u => rw [hr] at hfail; simp at hfail
      | error e =>
        rcases raise_error_error_cases id args e hr with he | he
        · exact ⟨id, args, .arity id, List.mem_cons_self _ _, hid,
            by rw [hr, he], rfl,
            by simp [processCalls, processCall, hid, hr, he]⟩
        · exact ⟨id, args, .shape id, List.mem_cons_self _ _, hid,
            by rw [hr, he], rfl,
            by simp [processCalls, processCall, hid, hr, he]⟩
    · have h2 : rest.any (callFails vars) = true := by
        rcases h with h | h
        · exact absurd h hc
        · exact h
      obtain ⟨f, args⟩ := hd
      have hok : ∃ acc1, processCall vars acc (f, args) = .ok acc1 := by
        cases f <;> simp [processCall]
        rename_i id
        by_cases hid : id ∈ vars
        · simp [hid]
          cases hr : raise_error_if_incorrect_argument id args with
          | ok u => simp
          | error e => simp [callFails, hid, hr] at hc
        · simp [hid]
      obtain ⟨acc1, hacc1⟩ := hok
      obtain ⟨c, cargs, k, hk0, hk1, hk2, hk3, hk4⟩ := ih h2 acc1
      exact ⟨c, cargs, k, List.mem_cons_of_mem _ hk0, hk1, hk2, hk3,
        by simp [processCalls, hacc1, hk4]⟩

theorem enqueueChildren_spec (cs : List Nat) :
    ∀ q v, ∃ ds, enqueueChildren cs q v = (q ++ ds, v ++ ds) ∧
      (∀ d ∈ ds, d ∈ cs ∧ d ∉ v) ∧ ds.Nodup := by
  induction cs with
  | nil =>
    intro q v
    exact ⟨[], by simp [enqueueChildren], by simp, List.nodup_nil⟩
  | cons c cs ih =>
    intro q v
    by_cases hc : c ∈ v
    · obtain ⟨ds, h1, h2, h3⟩ := ih q v
      refine ⟨ds, ?_, ?_, h3⟩
      · simpa [enqueueChildren, hc] using h1
      · intro d hd
        exact ⟨List.mem_cons_of_mem _ (h2 d hd).1, (h2 d hd).2⟩
    · obtain ⟨ds, h1, h2, h3⟩ := ih (q ++ [c]) (v ++ [c])
      refine ⟨c :: ds, ?_, ?_, ?_⟩
      · calc enqueueChildren (c :: cs) q v
            = enqueueChildren cs (q ++ [c]) (v ++ [c]) := by simp [enqueueChildren, hc]
          _ = ((q ++ [c]) ++ ds, (v ++ [c]) ++ ds) := h1
          _ = (q ++ (c :: ds), v ++ (c :: ds)) := by simp
      · intro d hd
        rcases List.mem_cons.mp hd with rfl | hd2
        · exact ⟨List.mem_cons_self _ _, hc⟩
        · refine ⟨List.mem_cons_of_mem _ (h2 d hd2).1, ?_⟩
          have := (h2 d hd2).2
          simp [List.mem_append] at this
          exact this.1
      · refine List.nodup_cons.mpr ⟨?_, h3⟩
        intro hmem
        have := (h2 c hmem).2
        simp [List.mem_append] at this

theorem mem_allNodes_of_mem_predecessors (DG : Digraph) (n c : Nat)
    (h : c ∈ DG.predecessors n) : c ∈ DG.allNodes := by
  simp only [Digraph.predecessors, List.mem_map, List.mem_filter] at h
  obtain ⟨e, ⟨he, _⟩, rfl⟩ := h
  simp only [Digraph.allNodes, List.mem_append, List.mem_map]
  exact Or.inl (Or.inr ⟨e, he, rfl⟩)

theorem unvisitedCount_append (DG : Digraph) (v ds : List Nat)
    (hsub : ∀ d ∈ ds, d ∈ DG.allNodes ∧ d ∉ v) (hnd : ds.Nodup) :
    unvisitedCount DG (v ++ ds) + ds.length = unvisitedCount DG v := by
  have hds_sub : ds.toFinset ⊆ DG.allNodes.toFinset \ v.toFinset := by
    intro x hx
    rw [List.mem_toFinset] at hx
    simp only [Finset.mem_sdiff, List.mem_toFinset]
    exact hsub x hx
  have hset : DG.allNodes.toFinset \ (v ++ ds).toFinset
      = (DG.allNodes.toFinset \ v.toFinset) \ ds.toFinset := by
    ext x
    simp only [Finset.mem_sdiff, List.mem_toFinset, List.mem_append]
    tauto
  have hlen : ds.toFinset.card = ds.length := List.toFinset_card_of_nodup hnd
  have hle : ds.length ≤ (DG.allNodes.toFinset \ v.toFinset).card := by
    calc ds.length = ds.toFinset.card := hlen.symm
      _ ≤ _ := Finset.card_le_card hds_sub
  simp only [unvisitedCount, hset, Finset.card_sdiff hds_sub, hlen]
  omega

theorem bfsLoop_isSome (DG : Digraph) :
    ∀ fuel queue visited, queue.length + unvisitedCount DG visited ≤ fuel →
      (bfsLoop DG fuel queue visited).isSome = true := by
  intro fuel
  induction fuel with
  | zero =>
    intro queue visited h
    cases queue with
    | nil => simp [bfsLoop]
    | cons n rest => simp [List.length_cons] at h
  | succ fuel ih =>
    intro queue visited h
    cases queue with
    | nil => simp [bfsLoop]
    | cons n rest =>
      obtain ⟨ds, h1, h2, h3⟩ := enqueueChildren_spec (DG.predecessors n) rest visited
      have h2a : ∀ d ∈ ds, d ∈ DG.allNodes ∧ d ∉ visited := fun d hd =>
        ⟨mem_allNodes_of_mem_predecessors DG n d (h2 d hd).1, (h2 d hd).2⟩
      have hcount := unvisitedCount_append DG visited ds h2a h3
      have hstep : bfsLoop DG (fuel + 1) (n :: rest) visited
          = bfsLoop DG fuel (rest ++ ds) (visited ++ ds) := by
        simp [bfsLoop, h1]
      rw [hstep]
      apply ih
      simp only [List.length_cons, List.length_append] at h ⊢
      omega

theorem bfsLoop_mem (DG : Digraph) :
    ∀ fuel queue visited r, bfsLoop DG fuel queue visited = some r →
      ∀ x ∈ visited, x ∈ r := by
  intro fuel
  induction fuel with
  | zero =>
    intro queue visited r h
    cases queue with
    | nil => simp [bfsLoop] at h; simpa [← h] using fun x hx => hx
    | cons n rest => simp [bfsLoop] at h
  | succ fuel ih =>
    intro queue visited r h
    cases queue with
    | nil => simp [bfsLoop] at h; simpa [← h] using fun x hx => hx
    | cons n rest =>
      obtain ⟨ds, h1, h2, h3⟩ := enqueueChildren_spec (DG.predecessors n) rest visited
      have hstep : bfsLoop DG (fuel + 1) (n :: rest) visited
          = bfsLoop DG fuel (rest ++ ds) (visited ++ ds) := by
        simp [bfsLoop, h1]
      rw [hstep] at h
      intro x hx
      exact ih _ _ r h x (List.mem_append_left _ hx)

theorem bfsLoop_nodup (DG : Digraph) :
    ∀ fuel queue visited r, visited.Nodup →
      bfsLoop DG fuel queue visited = some r → r.Nodup := by
  intro fuel
  induction fuel with
  | zero =>
    intro queue visited r hnd h
    cases queue with
    | nil => simp [bfsLoop] at h; rwa [← h]
    | cons n rest => simp [bfsLoop] at h
  | succ fuel ih =>
    intro queue visited r hnd h
    cases queue with
    | nil => simp [bfsLoop] at h; rwa [← h]
    | cons n rest =>
      obtain ⟨ds, h1, h2, h3⟩ := enqueueChildren_spec (DG.predecessors n) rest visited
      have hstep : bfsLoop DG (fuel + 1) (n :: rest) visited
          = bfsLoop DG fuel (rest ++ ds) (visited ++ ds) := by
        simp [bfsLoop, h1]
      rw [hstep] at h
      apply ih _ _ r _ h
      refine List.Nodup.append hnd h3 ?_
      intro a hav had
      exact (h2 a had).2 hav


/-! ### The claims -/

/-- C1, counterexample: classifying the singleton group `[f]` where f's
formula contains the call `f(t-1)` assigns `calc_direction = "forward"`,
not "backward" as the claim states (graph.py maps `ast.Sub` to "forward"
and `ast.Add` to "backward" — the opposite of the claim's mapping). -/
theorem claim_C1_counterexample :
    get_calc_direction [fSelfLag] = .ok [⟨"f", fSelfLag.formula, "forward"⟩] ∧
      "forward" ≠ "backward" :=
  ⟨rfl, by decide⟩

/-- C1, amended: for every classification group, a call to a group member
whose single argument is the time cursor plus a literal integer offset sets
the running direction to "backward", and the time cursor minus a literal
integer offset sets it to "forward"; in particular, classifying the
singleton group `[f]` where f's formula contains `f(t-1)` assigns
`f.calc_direction = "forward"`. -/
theorem claim_C1_amended (vars : List String) (id cd : String) (k : Int)
    (h : id ∈ vars) :
    CalcDirectionVisitor.visit vars
        (.call (.name id) [.binop (.name "t") .add (.const (.intc k))]) cd = .ok "backward" ∧
    CalcDirectionVisitor.visit vars
        (.call (.name id) [.binop (.name "t") .sub (.const (.intc k))]) cd = .ok "forward" ∧
    get_calc_direction [fSelfLag] = .ok [⟨"f", fSelfLag.formula, "forward"⟩] := by
  refine ⟨?_, ?_, rfl⟩ <;> simp [CalcDirectionVisitor.visit, h]

/-- C1, witness: the amended theorem applied at the group name list
`["f"]`, running value "irrelevant" and offset 1. -/
theorem claim_C1_amended_witness :
    CalcDirectionVisitor.visit ["f"]
        (.call (.name "f") [.binop (.name "t") .add (.const (.intc 1))]) "irrelevant" = .ok "backward" ∧
    CalcDirectionVisitor.visit ["f"]
        (.call (.name "f") [.binop (.name "t") .sub (.const (.intc 1))]) "irrelevant" = .ok "forward" ∧
    get_calc_direction [fSelfLag] = .ok [⟨"f", fSelfLag.formula, "forward"⟩] :=
  claim_C1_amended ["f"] "f" "irrelevant" 1 (by simp)

/-- C2, counterexample: in `a(t) = g(f())` with known names `{a, f}`, the
call `f()` to the known variable f sits inside the argument of the call to
the unknown name g; the extractor returns an empty list without error —
the nested call is neither validated (its empty argument list would raise
an arity error) nor recorded, contradicting the claim that every call to a
known variable anywhere in the tree is reached. -/
theorem claim_C2_counterexample :
    get_calls aNestedCall [aNestedCall, fConstVar] = .ok [] := rfl

/-- C2, amended: the extractor's traversal reaches exactly the call
expressions not nested inside another call expression — it recurses
through arithmetic and all other non-call nodes (first conjunct: the
traversal equals the left-to-right processing of `reachableCalls`, whose
recursion crosses every constructor except `call`; second conjunct: a call
nested inside an arithmetic expression is validated and recorded) — but
`visit_Call` never descends into a call's callee or arguments, so calls
nested there are skipped (third conjunct: a call whose callee is unknown
is passed over whole, whatever calls its arguments contain). -/
theorem claim_C2_amended :
    (∀ (vars : List String) (e : Expr) (acc : List String),
      CallVisitor.visit vars e acc = processCalls vars acc (reachableCalls e)) ∧
    (∀ (vars : List String) (id : String) (op : Op) (c : Const) (acc : List String),
      id ∈ vars →
      CallVisitor.visit vars (.binop (.call (.name id) [.name "t"]) op (.const c)) acc
        = .ok (acc ++ [id])) ∧
    (∀ (vars : List String) (fid : String) (args : List Expr) (acc : List String),
      fid ∉ vars → CallVisitor.visit vars (.call (.name fid) args) acc = .ok acc) := by
  refine ⟨fun vars => visit_eq_processCalls vars, ?_, ?_⟩
  · intro vars id op c acc h
    simp [CallVisitor.visit, h, raise_error_if_incorrect_argument]
  · intro vars fid args acc h
    simp [CallVisitor.visit, h]

/-- C2, witness: the amended theorem applied to the `a(t) = g(f())`
formula, to `g(t) + 0` with known name g, and to the unknown-callee call
`g(f())` with known names `{a, f}`. -/
theorem claim_C2_amended_witness :
    CallVisitor.visit ["a", "f"] aNestedCall.formula []
      = processCalls ["a", "f"] [] (reachableCalls aNestedCall.formula) ∧
    CallVisitor.visit ["g"] (.binop (.call (.name "g") [.name "t"]) .add (.const (.intc 0))) []
      = .ok ([] ++ ["g"]) ∧
    CallVisitor.visit ["a", "f"] (.call (.name "g") [.call (.name "f") []]) [] = .ok [] :=
  ⟨claim_C2_amended.1 ["a", "f"] aNestedCall.formula [],
   claim_C2_amended.2.1 ["g"] "g" .add (.intc 0) [] (by simp),
   claim_C2_amended.2.2 ["a", "f"] "g" [.call (.name "f") []] [] (by simp)⟩

/-- C3, counterexample: for `a(t) = g(t) + g(t)` with known names
`{a, g}`, the extractor returns the resolved variable g twice — the
returned list does not contain each referenced name at most once. -/
theorem claim_C3_counterexample :
    get_calls aDoubleCall [aDoubleCall, gConstVar] = .ok [some gConstVar, some gConstVar] ∧
    gConstVar.name = "g" ∧
    ¬ List.Nodup [some gConstVar, some gConstVar] :=
  ⟨rfl, rfl, by simp⟩

/-- C3, amended: the list returned by the extractor never contains the
variable whose formula is being analyzed (self-references are excluded by
name, under any time index), but entries are not deduplicated: one entry
is appended per visited call to a known variable, so the same referenced
name can appear several times. -/
theorem claim_C3_amended (v : Variable) (vs : List Variable)
    (r : List (Option Variable)) (h : get_calls v vs = .ok r) :
    ∀ o ∈ r, ∀ w : Variable, o = some w → w.name ≠ v.name := by
  intro o ho w hw
  have h2 : (match CallVisitor.visit (vs.map Variable.name) v.formula [] with
      | .error e => (.error e : Except PyError (List (Option Variable)))
      | .ok call_names =>
          .ok ((call_names.filter (fun n => n != v.name)).map
            (get_object_by_name vs))) = .ok r := h
  clear h
  cases hcv : CallVisitor.visit (vs.map Variable.name) v.formula [] with
  | error e => rw [hcv] at h2; simp at h2
  | ok call_names =>
    rw [hcv] at h2
    simp only [Except.ok.injEq] at h2
    subst h2
    obtain ⟨n, hn, ho2⟩ := List.mem_map.mp ho
    have hne : n ≠ v.name := by
      have := (List.mem_filter.mp hn).2
      simpa using this
    subst hw
    have hf : vs.find? (fun x => x.name == n) = some w := by
      simpa [get_object_by_name] using ho2
    have hwn : w.name = n := by simpa using List.find?_some hf
    rw [hwn]
    exact hne

/-- C3, witness: the amended theorem applied to the duplicate-call
extraction result of `a(t) = g(t) + g(t)`. -/
theorem claim_C3_amended_witness : gConstVar.name ≠ aDoubleCall.name :=
  claim_C3_amended aDoubleCall [aDoubleCall, gConstVar]
    [some gConstVar, some gConstVar] rfl (some gConstVar) (by simp) gConstVar rfl

/-- C4: the Validator raises the arity error naming the callee whenever
the argument count is not exactly one, and on a single argument accepts
exactly the permitted time-index shapes (bare `t`, an int-instance
constant, or `t` plus/minus an int-instance constant), raising the shape
error naming the callee otherwise. -/
theorem claim_C4 :
    (∀ (funcId : String) (args : List Expr), args.length ≠ 1 →
      raise_error_if_incorrect_argument funcId args
        = .error (.cashflowModelError (.arity funcId))) ∧
    (∀ (funcId : String) (arg : Expr),
      raise_error_if_incorrect_argument funcId [arg]
        = if permitted_time_index arg then .ok ()
          else .error (.cashflowModelError (.shape funcId))) :=
  ⟨raise_error_not_one_arg, raise_error_one_arg⟩

/-- C4, witness: the theorem applied to callee "q" with an empty argument
list, with the bare cursor `t`, and with the invalid name `z`. -/
theorem claim_C4_witness :
    raise_error_if_incorrect_argument "q" []
      = .error (.cashflowModelError (.arity "q")) ∧
    raise_error_if_incorrect_argument "q" [.name "t"] = .ok () ∧
    raise_error_if_incorrect_argument "q" [.name "z"]
      = .error (.cashflowModelError (.shape "q")) :=
  ⟨claim_C4.1 "q" [] (by simp),
   by have h := claim_C4.2 "q" (.name "t"); simpa using h,
   by have h := claim_C4.2 "q" (.name "z"); simpa using h⟩

/-- C5, counterexample: classifying the group `[f, g]` where
`f(t) = g()` calls the group member g with zero arguments fails with
Python's `IndexError` from the subscript `node.args[0]`, which is not the
Validator's error kind — the Classifier does not go through the
Validator's checks. -/
theorem claim_C5_counterexample :
    get_calc_direction [fZeroArgCall, gConstVar] = .error .indexError ∧
    PyError.indexError.isValidatorError = false :=
  ⟨rfl, rfl⟩

/-- C5, amended: the Classifier never invokes the Validator; it reads the
call's first argument directly, so a call to a group member with zero
arguments fails with an `IndexError` (not the Validator's
`CashflowModelError`), and a single argument of invalid shape (here: any
bare name, valid or not) is ignored without any error. -/
theorem claim_C5_amended (vars : List String) (id cd : String) (h : id ∈ vars) :
    CalcDirectionVisitor.visit vars (.call (.name id) []) cd = .error .indexError ∧
    (∀ badName : String,
      CalcDirectionVisitor.visit vars (.call (.name id) [.name badName]) cd = .ok cd) := by
  constructor
  · simp [CalcDirectionVisitor.visit, h]
  · intro badName
    simp [CalcDirectionVisitor.visit, h]

/-- C5, witness: the amended theorem applied at group name list `["g"]`
with running value "irrelevant" and the invalid argument name `x`. -/
theorem claim_C5_amended_witness :
    CalcDirectionVisitor.visit ["g"] (.call (.name "g") []) "irrelevant"
      = .error .indexError ∧
    CalcDirectionVisitor.visit ["g"] (.call (.name "g") [.name "x"]) "irrelevant"
      = .ok "irrelevant" :=
  ⟨(claim_C5_amended ["g"] "g" "irrelevant" (by simp)).1,
   (claim_C5_amended ["g"] "g" "irrelevant" (by simp)).2 "x"⟩

/-- C6: whenever some reachable call to a known variable fails argument
validation, the extractor raises an error naming that callee, and returns
no list at all.  The conclusion exhibits the offending call itself: a call
site `(name c, args)` of the formula whose callee `c` is a known variable,
whose own validation produces exactly the error the extractor raises, and
whose name `c` is the one the error carries — and no ok-list is returned,
so there is no partial output. -/
theorem claim_C6 (v : Variable) (vs : List Variable)
    (h : (reachableCalls v.formula).any (callFails (vs.map Variable.name)) = true) :
    ∃ (c : String) (args : List Expr) (k : ErrKind),
      (Expr.name c, args) ∈ reachableCalls v.formula ∧
      c ∈ vs.map Variable.name ∧
      raise_error_if_incorrect_argument c args = .error (.cashflowModelError k) ∧
      k.callee = c ∧
      get_calls v vs = .error (.cashflowModelError k) ∧
      ∀ l, get_calls v vs ≠ .ok l := by
  obtain ⟨c, args, k, hk0, hk1, hk2, hk3, hk4⟩ :=
    processCalls_error_names_offender (vs.map Variable.name) (reachableCalls v.formula) h []
  have hv : CallVisitor.visit (vs.map Variable.name) v.formula []
      = .error (.cashflowModelError k) := by
    rw [visit_eq_processCalls]; exact hk4
  have hg : get_calls v vs = .error (.cashflowModelError k) := by
    have h2 : get_calls v vs = (match CallVisitor.visit (vs.map Variable.name) v.formula [] with
        | .error e => (.error e : Except PyError (List (Option Variable)))
        | .ok call_names =>
            .ok ((call_names.filter (fun n => n != v.name)).map
              (get_object_by_name vs))) := rfl
    rw [h2, hv]
  exact ⟨c, args, k, hk0, hk1, hk2, hk3, hg, fun l hl => by rw [hg] at hl; simp at hl⟩

/-- C6, witness: the theorem applied to `a(t) = g(t) + h(t, t)` with
known names `{a, g, h}`, whose two-argument call to h fails validation:
the raised error is the arity error naming h, the callee of that failing
call. -/
theorem claim_C6_witness :
    ∃ (c : String) (args : List Expr) (k : ErrKind),
      (Expr.name c, args) ∈ reachableCalls aArityBad.formula ∧
      c ∈ [aArityBad, gConstVar, hConstVar].map Variable.name ∧
      raise_error_if_incorrect_argument c args = .error (.cashflowModelError k) ∧
      k.callee = c ∧
      get_calls aArityBad [aArityBad, gConstVar, hConstVar]
        = .error (.cashflowModelError k) ∧
      ∀ l, get_calls aArityBad [aArityBad, gConstVar, hConstVar] ≠ .ok l :=
  claim_C6 aArityBad [aArityBad, gConstVar, hConstVar] (by decide)

/-- C7: the Classifier threads one running direction value through the
whole group.  First conjunct: classifying `xs ++ ys` assigns the members
of `xs` exactly what classifying `xs` alone from the same running value
assigns them — each member snapshots the running value immediately after
its own formula's traversal, and direction signals found in later members
never revise it — while `ys` continues from the running value `xs` left
behind.  Second conjunct: a member with no direction-affecting call is
assigned the inherited running value unchanged.  Third conjunct: a group
is always classified starting from the running value "irrelevant". -/
theorem claim_C7 :
    (∀ (names : List String) (cd : String) (xs ys : List Variable),
      classifyLoop names cd (xs ++ ys) =
        match classifyLoop names cd xs with
        | .error e => .error e
        | .ok (l1, cd1) =>
          match classifyLoop names cd1 ys with
          | .error e => .error e
          | .ok (l2, cd2) => .ok (l1 ++ l2, cd2)) ∧
    (∀ (names : List String) (cd : String) (v : Variable) (rest : List Variable),
      hasTimeShiftedCall names v.formula = false →
      classifyLoop names cd (v :: rest) =
        match classifyLoop names cd rest with
        | .error e => .error e
        | .ok (l, cdF) => .ok ({ v with calc_direction := cd } :: l, cdF)) ∧
    (∀ vs : List Variable, get_calc_direction vs =
        match classifyLoop (vs.map Variable.name) "irrelevant" vs with
        | .error e => .error e
        | .ok (l, _) => .ok l) := by
  refine ⟨fun names cd xs ys => classifyLoop_append names xs ys cd, ?_, fun vs => rfl⟩
  intro names cd v rest h
  have hv : CalcDirectionVisitor.visit names v.formula cd = .ok cd := by
    rw [dirVisit_eq_dirSteps]
    exact dirSteps_of_no_shift names (reachableCalls v.formula) h cd
  rw [classifyLoop, hv]

/-- C7, witness: the theorem applied to the two-member group
`[p, q]` (where `p(t) = p(t+1)` and `q(t) = p(t)`), and the
no-time-shift member q inheriting the running value "backward". -/
theorem claim_C7_witness :
    classifyLoop ["p", "q"] "irrelevant" ([pPlusOne] ++ [qCallsP]) =
      (match classifyLoop ["p", "q"] "irrelevant" [pPlusOne] with
        | .error e => .error e
        | .ok (l1, cd1) =>
          match classifyLoop ["p", "q"] cd1 [qCallsP] with
          | .error e => .error e
          | .ok (l2, cd2) => .ok (l1 ++ l2, cd2)) ∧
    classifyLoop ["p"] "backward" [qCallsP]
      = .ok ([{ qCallsP with calc_direction := "backward" }], "backward") :=
  ⟨claim_C7.1 ["p", "q"] "irrelevant" [pPlusOne] [qCallsP],
   (claim_C7.2.1 ["p"] "backward" qCallsP [] rfl).trans (by rfl)⟩

/-- C8: for every finite directed graph and start node, the predecessor
closure succeeds, always contains the start node, and contains each node
at most once; determinism and idempotence as a set are immediate since
`get_predecessors` is a pure function of the graph and the start node. -/
theorem claim_C8 (DG : Digraph) (start : Nat) :
    ∃ r, get_predecessors start DG = some r ∧ start ∈ r ∧ r.Nodup := by
  have hfuel : [start].length + unvisitedCount DG [start] ≤ DG.allNodes.length + 1 := by
    have h1 : unvisitedCount DG [start] ≤ DG.allNodes.toFinset.card :=
      Finset.card_le_card Finset.sdiff_subset
    have h2 : DG.allNodes.toFinset.card ≤ DG.allNodes.length :=
      List.toFinset_card_le DG.allNodes
    simp only [List.length_singleton]
    omega
  obtain ⟨r, hr⟩ := Option.isSome_iff_exists.mp
    (bfsLoop_isSome DG (DG.allNodes.length + 1) [start] [start] hfuel)
  exact ⟨r, hr, bfsLoop_mem DG _ _ _ r hr start (by simp),
    bfsLoop_nodup DG _ _ _ r (List.nodup_singleton start) hr⟩

/-- C9: the breadth-first loop of the predecessor closure terminates on
every finite directed graph — the visited-list guard lets each node be
enqueued at most once, so the fuel `allNodes.length + 1` is never
exhausted — including on graphs with cycles, as the second conjunct shows
on a concrete graph with a 2-cycle and a self-loop. -/
theorem claim_C9 :
    (∀ (DG : Digraph) (start : Nat), (get_predecessors start DG).isSome = true) ∧
    get_predecessors 3 DGcycle = some [3, 2, 1] := by
  constructor
  · intro DG start
    have h1 : unvisitedCount DG [start] ≤ DG.allNodes.toFinset.card :=
      Finset.card_le_card Finset.sdiff_subset
    have h2 : DG.allNodes.toFinset.card ≤ DG.allNodes.length :=
      List.toFinset_card_le DG.allNodes
    exact bfsLoop_isSome DG (DG.allNodes.length + 1) [start] [start]
      (by simp only [List.length_singleton]; omega)
  · rfl

/-- C10: the Validator accepts boolean literals wherever it requires a
literal integer, because `isinstance(value, int)` holds for Python bools:
a bare `True`/`False` argument and `t` plus/minus a boolean all validate,
and extraction of `a(t) = g(True)` succeeds. -/
theorem claim_C10 (funcId : String) (b : Bool) :
    raise_error_if_incorrect_argument funcId [.const (.boolc b)] = .ok () ∧
    raise_error_if_incorrect_argument funcId
      [.binop (.name "t") .add (.const (.boolc b))] = .ok () ∧
    raise_error_if_incorrect_argument funcId
      [.binop (.name "t") .sub (.const (.boolc b))] = .ok () ∧
    get_calls aBoolArg [aBoolArg, gConstVar] = .ok [some gConstVar] := by
  refine ⟨?_, ?_, ?_, rfl⟩ <;> simp [raise_error_if_incorrect_argument, Const.isInstInt]

end Cashflower
